import Mathlib

/-! Shallow embedding of the audio transcoding pipeline of `midirenderer`
(`src/audio_utils.rs`): the WAV writer portion of `render_midi_to_wav`,
the WAV parser `parse_wav_header`, and the normalization / Opus-Ogg
packetization of `wav_to_opus_ogg`.

Bytes are modelled as `UInt8`, byte buffers as `List UInt8`, `usize` and
`u32`/`u64` quantities as `Nat` with explicit `% 2^w` where the Rust code
can wrap, and `i16` values as `Int` reduced into `[-2^15, 2^15)` where the
Rust code casts or shifts.  Fallible code returns `Except`.  The external
collaborators (the synthesizer and the libopus encoder) are out of scope
of the spec; the encoder is passed in as an explicit function argument.
-/

namespace Midirenderer

/-- Little-endian 16-bit read of two bytes (`u16::from_le_bytes`). -/
def le16 (b0 b1 : UInt8) : Nat := b0.toNat + 256 * b1.toNat

/-- Little-endian 32-bit read of four bytes (`u32::from_le_bytes`). -/
def le32 (b0 b1 b2 b3 : UInt8) : Nat :=
  b0.toNat + 256 * b1.toNat + 65536 * b2.toNat + 16777216 * b3.toNat

/-- Little-endian byte encoding of a `u16` value (`u16::to_le_bytes`). -/
def u16le (v : Nat) : List UInt8 := [UInt8.ofNat v, UInt8.ofNat (v / 256)]

/-- Little-endian byte encoding of a `u32` value (`u32::to_le_bytes`). -/
def u32le (v : Nat) : List UInt8 :=
  [UInt8.ofNat v, UInt8.ofNat (v / 256), UInt8.ofNat (v / 65536), UInt8.ofNat (v / 16777216)]

/-- Reduction of an integer into the `i16` range `[-2^15, 2^15)`, i.e. the
two's-complement wrap performed by Rust `as i16` casts and by `i16` shifts. -/
def i16Wrap (x : Int) : Int := (x + 32768) % 65536 - 32768

/-- Little-endian byte encoding of an `i16` value (`i16::to_le_bytes`):
the two's-complement bit pattern, i.e. the value modulo `2^16`. -/
def i16le (x : Int) : List UInt8 := u16le (x % 65536).toNat

/-- Decoding of two little-endian bytes as an `i16` (`i16::from_le_bytes`). -/
def i16FromLeBytes (b0 b1 : UInt8) : Int := i16Wrap (le16 b0 b1)

/-- Errors of the pipeline, mirroring `AudioError` in `audio_utils.rs`.
The `WavParsing(String)` constructor is split by message so the distinct
failure reasons stay distinguishable:
`wavTooShort` = "WAV data too short", `invalidWav` = "Invalid WAV file",
`noDataChunk` = "No data chunk found",
`unsupportedSampleRate got` = "Unsupported sample rate. Expected 48000, got _",
`unsupportedBitDepth bits` = "Unsupported bit depth: _".
`panicZeroChunkSize` models the Rust panic of `chunks_exact(0)`
(it is an abort, not an `Err`, in the real program).
`opusErr` stands for any propagated `opus::Error`. -/
inductive AudioErr where
  | wavTooShort
  | invalidWav
  | noDataChunk
  | unsupportedSampleRate (got : Nat)
  | unsupportedBitDepth (bits : Nat)
  | panicZeroChunkSize
  | opusErr
deriving DecidableEq, Repr

/-- Result of `parse_wav_header` (struct `WavHeader` in `audio_utils.rs`). -/
structure WavHeader where
  channels : Nat
  sample_rate : Nat
  bits_per_sample : Nat
  data_start : Nat
deriving DecidableEq, Repr

/-- Four consecutive bytes of a buffer, as compared against the 4-byte tags
(`&data[i..i + 4]`; all uses are guarded so the reads are in bounds). -/
def tagAt (data : List UInt8) (i : Nat) : List UInt8 :=
  [data.getD i 0, data.getD (i + 1) 0, data.getD (i + 2) 0, data.getD (i + 3) 0]

def riffTag : List UInt8 := [82, 73, 70, 70]

def waveTag : List UInt8 := [87, 65, 86, 69]

def dataTag : List UInt8 := [100, 97, 116, 97]

/-- The chunk-walk loop of `parse_wav_header` (audio_utils.rs:55-73): starting
at offset `ds`, while `ds + 8 < data.len()` read the 4-byte chunk tag and the
little-endian `u32` chunk size; on tag `data` stop at `ds + 8`, otherwise skip
to `ds + 8 + size`.  The Rust `checked_add` guard can only fail when
`8 + size` overflows `usize`, which cannot happen for an in-memory slice
(`ds < data.len() <= isize::MAX` and `size < 2^32`), so it has no
counterpart on `Nat`. -/
def findDataChunkFuel (data : List UInt8) : Nat → Nat → Nat
  | 0, ds => ds
  | fuel + 1, ds =>
    if ds + 8 < data.length then
      if tagAt data ds = dataTag then ds + 8
      else
        findDataChunkFuel data fuel
          (ds + 8 + le32 (data.getD (ds + 4) 0) (data.getD (ds + 5) 0)
            (data.getD (ds + 6) 0) (data.getD (ds + 7) 0))
    else ds

/-- The loop of `parse_wav_header`, entered at offset `ds`.  Every
iteration of the Rust loop advances `ds` by at least 8 and the loop runs
only while `ds + 8 < data.len()`, so `data.length` units of fuel are
always enough (`findDataChunk_eq` below recovers the exact loop
equation, with no mention of fuel). -/
def findDataChunk (data : List UInt8) (ds : Nat) : Nat :=
  findDataChunkFuel data data.length ds

/-- Model of `parse_wav_header` (audio_utils.rs:42-85): reject inputs shorter
than 44 bytes, check the `RIFF`/`WAVE` magic tags, read channel count, sample
rate and bit depth from the fixed offsets 22-23, 24-27 and 34-35, then walk
the chunks from offset 12 to locate the `data` chunk; error if the resulting
offset is not below the input length. -/
def parse_wav_header (data : List UInt8) : Except AudioErr WavHeader :=
  if data.length < 44 then .error .wavTooShort
  else if tagAt data 0 ≠ riffTag ∨ tagAt data 8 ≠ waveTag then .error .invalidWav
  else
    let channels := le16 (data.getD 22 0) (data.getD 23 0)
    let sample_rate :=
      le32 (data.getD 24 0) (data.getD 25 0) (data.getD 26 0) (data.getD 27 0)
    let bits_per_sample := le16 (data.getD 34 0) (data.getD 35 0)
    let data_start := findDataChunk data 12
    if data_start ≥ data.length then .error .noDataChunk
    else .ok ⟨channels, sample_rate, bits_per_sample, data_start⟩

/-- RIFF size field written by `render_midi_to_wav` (audio_utils.rs:130):
`36 + (sample_count * 4) as u32`, a wrapping `as u32` cast followed by a
`u32` addition (which wraps in release builds). -/
def riffSize (sample_count : Nat) : Nat :=
  (36 + sample_count * 4 % 4294967296) % 4294967296

/-- Data-chunk size field written by `render_midi_to_wav` (audio_utils.rs:145):
`(sample_count * 4) as u32`, a wrapping cast. -/
def dataSize (sample_count : Nat) : Nat := sample_count * 4 % 4294967296

/-- The 44-byte WAV header written by `render_midi_to_wav`
(audio_utils.rs:126-145): `RIFF` tag, RIFF size, `WAVE` tag, `fmt ` chunk
(size 16, PCM, 2 channels, sample rate 48000, byte rate 192000,
block align 4, 16 bits per sample), `data` tag and data size. -/
def wavHeaderBytes (sample_count : Nat) : List UInt8 :=
  riffTag ++ u32le (riffSize sample_count) ++ waveTag ++
  [102, 109, 116, 32] ++ u32le 16 ++ u16le 1 ++ u16le 2 ++
  u32le 48000 ++ u32le 192000 ++ u16le 4 ++ u16le 16 ++
  dataTag ++ u32le (dataSize sample_count)

/-- The sample-writing loop of `render_midi_to_wav` (audio_utils.rs:148-153):
for each zipped (left, right) pair append the little-endian `i16` bytes of
the left then the right sample.  The floating-point clamp-and-scale
conversion from `f32` is outside the integer model; the pairs here are the
already-converted `i16` sample values. -/
def sampleBytes : List (Int × Int) → List UInt8
  | [] => []
  | (l, r) :: rest => i16le l ++ i16le r ++ sampleBytes rest

/-- The WAV writer portion of `render_midi_to_wav` (audio_utils.rs:126-155):
header for `sample_count` stereo frames followed by the interleaved sample
bytes of the zipped left/right channel buffers (which the renderer fills to
exactly `sample_count` entries each).  The writer is total: no size check
is performed and every write into the `Vec` succeeds. -/
def renderWavBytes (sample_count : Nat) (left right : List Int) : List UInt8 :=
  wavHeaderBytes sample_count ++ sampleBytes (left.zip right)

def SAMPLE_RATE : Nat := 48000

/-- 20ms at 48kHz (`FRAME_SIZE` in audio_utils.rs). -/
def FRAME_SIZE : Nat := 960

/-- 10ms at 48kHz (`MINIMUM_FRAME_SIZE` in audio_utils.rs). -/
def MINIMUM_FRAME_SIZE : Nat := 480

/-- Saturating `u64` addition (`u64::saturating_add`). -/
def satAdd64 (a b : Nat) : Nat := min (a + b) (18446744073709551615)

/-- Model of `slice::chunks_exact(size)`: the list of consecutive full
chunks of length `size`; a trailing remainder shorter than `size` is
dropped.  Rust panics when `size = 0`; the caller models that panic, and
this function returns `[]` for `size = 0`. -/
def chunksExactFuel (size : Nat) : Nat → List α → List (List α)
  | 0, _ => []
  | fuel + 1, l =>
    if size ≤ l.length ∧ 0 < size then
      l.take size :: chunksExactFuel size fuel (l.drop size)
    else []

/-- Full chunks of `chunks_exact`; every iteration drops at least one
element, so `l.length` units of fuel always suffice (`chunksExact_eq`
below recovers the fuel-free recurrence). -/
def chunksExact (size : Nat) (l : List α) : List (List α) :=
  chunksExactFuel size l.length l

/-- Model of `slice::chunks(size)`: consecutive chunks of length `size`,
the last one possibly shorter.  All call sites use a positive `size`
(`FRAME_SIZE * channels`); for `size = 0` Rust would panic and this
function returns `[]`. -/
def chunksOfFuel (size : Nat) : Nat → List α → List (List α)
  | 0, _ => []
  | fuel + 1, l =>
    match l with
    | [] => []
    | a :: t =>
      if size = 0 then []
      else (a :: t).take size :: chunksOfFuel size fuel ((a :: t).drop size)

/-- Chunks of `slice::chunks` (last chunk possibly short); every iteration
on a non-empty list drops at least one element, so `l.length` units of
fuel always suffice (`chunksOf_eq` below recovers the fuel-free
recurrence). -/
def chunksOf (size : Nat) (l : List α) : List (List α) :=
  chunksOfFuel size l.length l

/-- The sample normalization step of `wav_to_opus_ogg`
(audio_utils.rs:188-208): for 16-bit input, walk the PCM bytes in frames of
`2 * channel_count` bytes (`chunks_exact`, dropping any trailing partial
frame), decode each frame's bytes pairwise as little-endian `i16`, and keep
the first 2 samples of each frame when stereo output is requested, else the
first 1; for 8-bit input, map every byte `b` to `(b as i16 - 128) << 8`
(the shift modelled with its `i16` wrap); any other bit depth is an error.
`chunks_exact` panics when `2 * channel_count = 0`; that abort is modelled
by the `panicZeroChunkSize` error. -/
def normalizeSamples (pcm_data : List UInt8) (bits_per_sample : Nat)
    (channel_count : Nat) (stereo : Bool) : Except AudioErr (List Int) :=
  if bits_per_sample = 16 then
    if channel_count = 0 then .error .panicZeroChunkSize
    else
      .ok ((chunksExact (2 * channel_count) pcm_data).flatMap fun chunk =>
        ((chunksExact 2 chunk).map fun sample =>
          i16FromLeBytes (sample.getD 0 0) (sample.getD 1 0)).take
          (if stereo then 2 else 1))
  else if bits_per_sample = 8 then
    .ok (pcm_data.map fun sample => i16Wrap ((Int.ofNat sample.toNat - 128) * 256))
  else .error (.unsupportedBitDepth bits_per_sample)

/-- Model of `pad_chunk` (audio_utils.rs:268-277): compute
`(min_length as i16) - (chunk.len() as i16)` (both casts and the
subtraction wrap as `i16`); when that is below 1 return the chunk
unchanged, otherwise append that many zero samples. -/
def pad_chunk (chunk : List Int) (channels : Nat) : List Int :=
  let min_length := MINIMUM_FRAME_SIZE * channels
  let padding_size : Int := i16Wrap (i16Wrap min_length - i16Wrap chunk.length)
  if padding_size < 1 then chunk
  else chunk ++ List.replicate padding_size.toNat 0

/-- Page-end disposition passed to the Ogg `PacketWriter`
(`PacketWriteEndInfo` of the `ogg` crate). -/
inductive EndInfo where
  | normalPacket
  | endPage
  | endStream
deriving DecidableEq, Repr

/-- One packet handed to the Ogg `PacketWriter`: payload bytes, page-end
disposition and granule position (all packets use serial number 1). -/
structure OggPacket where
  payload : List UInt8
  endInfo : EndInfo
  granule : Nat
deriving DecidableEq, Repr

/-- Model of `create_opus_header` (audio_utils.rs:279-307): the `OpusHead`
magic, version 1, the channel count byte, two pre-skip bytes (overwritten
to little-endian 3840 at indices 10 and 11), the little-endian sample
rate, a zero output gain and a zero channel-mapping family. -/
def create_opus_header (channels : Nat) (sample_rate : Nat) : List UInt8 :=
  let header :=
    [79, 112, 117, 115, 72, 101, 97, 100, 1, UInt8.ofNat channels, 0, 0] ++
    u32le sample_rate ++ [0, 0, 0]
  (header.set 10 0).set 11 15

/-- Model of `create_opus_comment` (audio_utils.rs:309-329): the `OpusTags`
magic, the little-endian length of the vendor string "midirenderer", the
vendor string bytes, and a zero user-comment-list length. -/
def create_opus_comment : List UInt8 :=
  [79, 112, 117, 115, 84, 97, 103, 115] ++ u32le 12 ++
  [109, 105, 100, 105, 114, 101, 110, 100, 101, 114, 101, 114] ++ [0, 0, 0, 0]

/-- The encoding loop of `wav_to_opus_ogg` (audio_utils.rs:235-254): for
each chunk, pad it, run the external encoder (its packet is truncated to
the returned length, modelled by the encoder returning the payload
directly), advance the granule position by `FRAME_SIZE` with saturating
`u64` addition, and emit the packet tagged with the updated position; an
encoder failure aborts immediately.  Returns the audio packets and the
final granule position. -/
def encodeLoop (encode : List Int → Except Unit (List UInt8))
    (chunks : List (List Int)) (channels : Nat) (granule_position : Nat) :
    Except AudioErr (List OggPacket × Nat) :=
  match chunks with
  | [] => .ok ([], granule_position)
  | chunk :: rest =>
    match encode (pad_chunk chunk channels) with
    | .error _ => .error .opusErr
    | .ok packet =>
      let g := satAdd64 granule_position FRAME_SIZE
      match encodeLoop encode rest channels g with
      | .error e => .error e
      | .ok (ps, gf) => .ok (⟨packet, .normalPacket, g⟩ :: ps, gf)

/-- Model of `wav_to_opus_ogg` (audio_utils.rs:158-266): parse the WAV
header, reject any sample rate other than 48000, slice the PCM region at
`data_start`, normalize the samples for the requested channel mode, then
emit the Opus identification packet and comment packet (both granule 0,
ending their page), the encoded audio packets with their running granule
positions, and a zero-length end-of-stream packet carrying the final
granule position.  The external encoder (constructed from the sample
rate, channel mode and bitrate directive) is abstracted as the `encode`
argument; a construction or bitrate failure would surface before any
packet is emitted, exactly like the sample-rate check. -/
def wav_to_opus_ogg (encode : List Int → Except Unit (List UInt8))
    (wav_data : List UInt8) (stereo : Bool) :
    Except AudioErr (List OggPacket) :=
  match parse_wav_header wav_data with
  | .error e => .error e
  | .ok wav_header =>
    if wav_header.sample_rate ≠ SAMPLE_RATE then
      .error (.unsupportedSampleRate wav_header.sample_rate)
    else
      match normalizeSamples (wav_data.drop wav_header.data_start)
          wav_header.bits_per_sample wav_header.channels stereo with
      | .error e => .error e
      | .ok samples =>
        match encodeLoop encode
            (chunksOf (FRAME_SIZE * (if stereo then 2 else 1)) samples)
            (if stereo then 2 else 1) 0 with
        | .error e => .error e
        | .ok (audio, granule_position) =>
          .ok (⟨create_opus_header (if stereo then 2 else 1) SAMPLE_RATE,
                .endPage, 0⟩ ::
               ⟨create_opus_comment, .endPage, 0⟩ ::
               (audio ++ [⟨[], .endStream, granule_position⟩]))

/-- The Boolean test distinguishing an audio packet: it is written with
`PacketWriteEndInfo::NormalPacket` (the identification and comment packets
end their page, and the end marker ends the stream). -/
def isAudio (p : OggPacket) : Bool := p.endInfo = EndInfo.normalPacket

/-- The audio packets of a packet list. -/
def audioPackets (ps : List OggPacket) : List OggPacket := ps.filter isAudio

/-- A trivial stand-in for the external Opus encoder, used to run the
pipeline on concrete inputs (the granule and framing behaviour under
scrutiny does not depend on the encoder's output bytes). -/
def stubEncode : List Int → Except Unit (List UInt8) := fun _ => .ok []

/-- A 44-byte input with valid `RIFF`/`WAVE` magic, a single non-`data`
chunk (`JUNK`) whose declared size 17 makes the chunk walk stop at offset
37, inside the final 8 bytes of the input.  It contains no `data` chunk
(no byte is even the letter `d`). -/
def junkTailWav : List UInt8 :=
  riffTag ++ [0, 0, 0, 0] ++ waveTag ++ [74, 85, 78, 75] ++ [17, 0, 0, 0] ++
  List.replicate 24 0

/-- The 36-byte preamble of a well-formed stereo 16-bit 48kHz container:
`RIFF` magic and size placeholder, `WAVE` magic, and the `fmt ` chunk as
`render_midi_to_wav` writes it. -/
def wavPreamble : List UInt8 :=
  riffTag ++ [0, 0, 0, 0] ++ waveTag ++
  [102, 109, 116, 32] ++ u32le 16 ++ u16le 1 ++ u16le 2 ++
  u32le 48000 ++ u32le 192000 ++ u16le 4 ++ u16le 16

/-- A container with one extra chunk of arbitrary tag `[t0, t1, t2, t3]`
and payload `junk` placed between the format chunk and the `data` chunk,
whose sample region is `body`. -/
def wavWithExtraChunk (t0 t1 t2 t3 : UInt8) (junk body : List UInt8) :
    List UInt8 :=
  wavPreamble ++ [t0, t1, t2, t3] ++ u32le junk.length ++ junk ++
  dataTag ++ u32le body.length ++ body

/-- A 48-byte input whose magic tags are valid but whose format chunk is
replaced by a `JUNK` chunk; the bytes at the fixed offsets 22-23, 24-27 and
34-35 (inside the junk payload) hold 7, 123 and 9. -/
def junkFmtWav : List UInt8 :=
  riffTag ++ [0, 0, 0, 0] ++ waveTag ++ [74, 85, 78, 75] ++ u32le 16 ++
  [0, 0, 7, 0, 123, 0, 0, 0, 0, 0, 0, 0, 0, 0, 9, 0] ++
  dataTag ++ u32le 0

/-- A well-formed mono 8-bit container at the 48000 Hz studio rate whose
data chunk holds 10 bytes, each valued 128 (mid-scale). -/
def wav8mono : List UInt8 :=
  riffTag ++ u32le 46 ++ waveTag ++
  [102, 109, 116, 32] ++ u32le 16 ++ u16le 1 ++ u16le 1 ++
  u32le 48000 ++ u32le 48000 ++ u16le 1 ++ u16le 8 ++
  dataTag ++ u32le 10 ++ List.replicate 10 128

/-- A well-formed stereo 8-bit container at the studio rate whose data
chunk holds one stereo frame with differing channels: left byte 1, right
byte 2. -/
def wav8stereo : List UInt8 :=
  riffTag ++ u32le 38 ++ waveTag ++
  [102, 109, 116, 32] ++ u32le 16 ++ u16le 1 ++ u16le 2 ++
  u32le 48000 ++ u32le 96000 ++ u16le 2 ++ u16le 8 ++
  dataTag ++ u32le 2 ++ [1, 2]

/-- A well-formed stereo 16-bit container at 44100 Hz (not the studio
rate) with one silent frame. -/
def wav44100 : List UInt8 :=
  riffTag ++ u32le 40 ++ waveTag ++
  [102, 109, 116, 32] ++ u32le 16 ++ u16le 1 ++ u16le 2 ++
  u32le 44100 ++ u32le 176400 ++ u16le 4 ++ u16le 16 ++
  dataTag ++ u32le 4 ++ [0, 0, 0, 0]

/-- Left i16 sample of a 16-bit frame: its first two bytes decoded
little-endian (the per-frame value kept when mono output is requested). -/
def leftSampleOf (frame : List UInt8) : Int :=
  i16FromLeBytes (frame.getD 0 0) (frame.getD 1 0)

/-- Both i16 samples of a 16-bit stereo frame: bytes 0-1 and 2-3 decoded
little-endian. -/
def bothSamplesOf (frame : List UInt8) : List Int :=
  [i16FromLeBytes (frame.getD 0 0) (frame.getD 1 0),
   i16FromLeBytes (frame.getD 2 0) (frame.getD 3 0)]

/-- The packet stream produced by `wav_to_opus_ogg` on `wav8mono` with the
stub encoder: identification packet, comment packet, one audio packet at
granule 960, and the end marker at granule 960. -/
def wav8monoPackets : List OggPacket :=
  [⟨create_opus_header 1 48000, .endPage, 0⟩,
   ⟨create_opus_comment, .endPage, 0⟩,
   ⟨[], .normalPacket, 960⟩,
   ⟨[], .endStream, 960⟩]

/-- A container with valid magic, a 16-bit format declaring 0 channels at
the studio rate, and a 1-byte data region. -/
def wav16zeroch : List UInt8 :=
  riffTag ++ u32le 37 ++ waveTag ++
  [102, 109, 116, 32] ++ u32le 16 ++ u16le 1 ++ u16le 0 ++
  u32le 48000 ++ u32le 0 ++ u16le 0 ++ u16le 16 ++
  dataTag ++ u32le 1 ++ [5]

deriving instance DecidableEq for Except

/-! Helper lemmas. -/

theorem i16Wrap_eq_of_range {x : Int} (h1 : -32768 ≤ x) (h2 : x < 32768) :
    i16Wrap x = x := by
  unfold i16Wrap
  omega

theorem findDataChunkFuel_fuel_invariant (data : List UInt8) :
    ∀ f g ds, data.length - ds ≤ 8 * f → data.length - ds ≤ 8 * g →
      findDataChunkFuel data f ds = findDataChunkFuel data g ds := by
  intro f
  induction f with
  | zero =>
    intro g ds hf _
    cases g with
    | zero => rfl
    | succ g =>
      have h1 : ¬ ds + 8 < data.length := by omega
      simp [findDataChunkFuel, h1]
  | succ f ih =>
    intro g ds hf hg
    cases g with
    | zero =>
      have h1 : ¬ ds + 8 < data.length := by omega
      simp [findDataChunkFuel, h1]
    | succ g =>
      simp only [findDataChunkFuel]
      by_cases h1 : ds + 8 < data.length
      · rw [if_pos h1, if_pos h1]
        by_cases h2 : tagAt data ds = dataTag
        · rw [if_pos h2, if_pos h2]
        · rw [if_neg h2, if_neg h2]
          exact ih g _ (by omega) (by omega)
      · rw [if_neg h1, if_neg h1]

/-- The loop equation of the chunk walk, free of fuel. -/
theorem findDataChunk_eq (data : List UInt8) (ds : Nat) :
    findDataChunk data ds =
      if ds + 8 < data.length then
        if tagAt data ds = dataTag then ds + 8
        else
          findDataChunk data
            (ds + 8 + le32 (data.getD (ds + 4) 0) (data.getD (ds + 5) 0)
              (data.getD (ds + 6) 0) (data.getD (ds + 7) 0))
      else ds := by
  unfold findDataChunk
  by_cases h1 : ds + 8 < data.length
  · conv_lhs => rw [show data.length = (data.length - 1) + 1 from by omega]
    simp only [findDataChunkFuel]
    rw [if_pos h1, if_pos h1]
    by_cases h2 : tagAt data ds = dataTag
    · rw [if_pos h2, if_pos h2]
    · rw [if_neg h2, if_neg h2]
      exact findDataChunkFuel_fuel_invariant data _ _ _ (by omega) (by omega)
  · rw [if_neg h1]
    cases hf : data.length with
    | zero => rfl
    | succ n =>
      simp only [findDataChunkFuel]
      rw [if_neg h1]

theorem chunksExactFuel_fuel_invariant {α : Type _} (size : Nat) :
    ∀ f g (l : List α), l.length ≤ f → l.length ≤ g →
      chunksExactFuel size f l = chunksExactFuel size g l := by
  intro f
  induction f with
  | zero =>
    intro g l hf _
    cases g with
    | zero => rfl
    | succ g =>
      have h1 : ¬ (size ≤ l.length ∧ 0 < size) := by omega
      simp [chunksExactFuel, h1]
  | succ f ih =>
    intro g l hf hg
    cases g with
    | zero =>
      have h1 : ¬ (size ≤ l.length ∧ 0 < size) := by omega
      simp [chunksExactFuel, h1]
    | succ g =>
      simp only [chunksExactFuel]
      by_cases h1 : size ≤ l.length ∧ 0 < size
      · rw [if_pos h1, if_pos h1]
        have hd : (l.drop size).length ≤ f := by simp [List.length_drop]; omega
        have hd' : (l.drop size).length ≤ g := by simp [List.length_drop]; omega
        rw [ih g _ hd hd']
      · rw [if_neg h1, if_neg h1]

/-- The recurrence of `chunksExact`, free of fuel. -/
theorem chunksExact_eq {α : Type _} (size : Nat) (l : List α) :
    chunksExact size l =
      if size ≤ l.length ∧ 0 < size then
        l.take size :: chunksExact size (l.drop size)
      else [] := by
  unfold chunksExact
  by_cases h1 : size ≤ l.length ∧ 0 < size
  · conv_lhs => rw [show l.length = (l.length - 1) + 1 from by omega]
    simp only [chunksExactFuel]
    rw [if_pos h1, if_pos h1]
    refine congrArg _ (chunksExactFuel_fuel_invariant size _ _ _ ?_ ?_) <;>
      · simp only [List.length_drop]
        omega
  · rw [if_neg h1]
    cases hf : l.length with
    | zero => rfl
    | succ n =>
      simp only [chunksExactFuel]
      rw [if_neg h1]

theorem chunksOfFuel_fuel_invariant {α : Type _} (size : Nat) :
    ∀ f g (l : List α), l.length ≤ f → l.length ≤ g →
      chunksOfFuel size f l = chunksOfFuel size g l := by
  intro f
  induction f with
  | zero =>
    intro g l hf _
    have : l = [] := List.length_eq_zero.mp (by omega)
    subst this
    cases g <;> rfl
  | succ f ih =>
    intro g l hf hg
    cases g with
    | zero =>
      have : l = [] := List.length_eq_zero.mp (by omega)
      subst this
      rfl
    | succ g =>
      cases l with
      | nil => rfl
      | cons a t =>
        simp only [List.length_cons] at hf hg
        simp only [chunksOfFuel]
        by_cases h1 : size = 0
        · rw [if_pos h1, if_pos h1]
        · rw [if_neg h1, if_neg h1]
          have hd : ((a :: t).drop size).length ≤ f := by
            simp only [List.length_drop, List.length_cons]
            omega
          have hd' : ((a :: t).drop size).length ≤ g := by
            simp only [List.length_drop, List.length_cons]
            omega
          rw [ih g _ hd hd']

theorem chunksOf_nil {α : Type _} (size : Nat) : chunksOf size ([] : List α) = [] := rfl

/-- The recurrence of `chunksOf` on a non-empty list, free of fuel. -/
theorem chunksOf_cons {α : Type _} (size : Nat) (a : α) (t : List α) :
    chunksOf size (a :: t) =
      if size = 0 then []
      else (a :: t).take size :: chunksOf size ((a :: t).drop size) := by
  unfold chunksOf
  simp only [List.length_cons, chunksOfFuel]
  by_cases h1 : size = 0
  · rw [if_pos h1, if_pos h1]
  · rw [if_neg h1, if_neg h1]
    refine congrArg _ (chunksOfFuel_fuel_invariant size _ _ _ ?_ ?_) <;>
      · simp only [List.length_drop, List.length_cons]
        omega

theorem sampleBytes_length (ps : List (Int × Int)) :
    (sampleBytes ps).length = 4 * ps.length := by
  induction ps with
  | nil => rfl
  | cons p rest ih =>
    cases p with
    | mk l r =>
      simp only [sampleBytes, List.length_append, List.length_cons, ih, i16le, u16le]
      simp
      omega

theorem wavHeaderBytes_length (sc : Nat) : (wavHeaderBytes sc).length = 44 := rfl

theorem renderWavBytes_length (sc : Nat) (left right : List Int)
    (hl : left.length = sc) (hr : right.length = sc) :
    (renderWavBytes sc left right).length = 44 + 4 * sc := by
  have hz : (left.zip right).length = sc := by
    simp [List.length_zip, hl, hr]
  simp [renderWavBytes, List.length_append, sampleBytes_length, hz,
    wavHeaderBytes_length]

/-! Claim theorems. -/

/-- C1: serializing any non-empty buffer of stereo sample pairs with the
writer portion of `render_midi_to_wav` and parsing the bytes back with
`parse_wav_header` succeeds and yields 2 channels, sample rate 48000, 16
bits per sample and `data_start = 44`, which is exactly the length of the
written header, i.e. the start of the written sample bytes.  The second
conjunct settles the spec's wider quantification over every buffer: on the
empty buffer parsing still succeeds but returns `data_start = 36` (the
chunk walk stops before examining the `data` tag at offset 36), not the
sample-region start 44. -/
theorem c1_wav_roundtrip :
    (∀ (sample_count : Nat) (left right : List Int),
      left.length = sample_count → right.length = sample_count →
      0 < sample_count →
      parse_wav_header (renderWavBytes sample_count left right) =
        .ok ⟨2, 48000, 16, 44⟩) ∧
    parse_wav_header (renderWavBytes 0 [] []) = .ok ⟨2, 48000, 16, 36⟩ := by
  refine ⟨?_, by decide⟩
  intro sc left right hl hr hpos
  have hlen : (renderWavBytes sc left right).length = 44 + 4 * sc :=
    renderWavBytes_length sc left right hl hr
  have hbytes :
      tagAt (renderWavBytes sc left right) 0 = riffTag ∧
      tagAt (renderWavBytes sc left right) 8 = waveTag ∧
      tagAt (renderWavBytes sc left right) 12 = [102, 109, 116, 32] ∧
      tagAt (renderWavBytes sc left right) 36 = dataTag ∧
      le32 ((renderWavBytes sc left right).getD 16 0)
        ((renderWavBytes sc left right).getD 17 0)
        ((renderWavBytes sc left right).getD 18 0)
        ((renderWavBytes sc left right).getD 19 0) = 16 ∧
      le16 ((renderWavBytes sc left right).getD 22 0)
        ((renderWavBytes sc left right).getD 23 0) = 2 ∧
      le32 ((renderWavBytes sc left right).getD 24 0)
        ((renderWavBytes sc left right).getD 25 0)
        ((renderWavBytes sc left right).getD 26 0)
        ((renderWavBytes sc left right).getD 27 0) = 48000 ∧
      le16 ((renderWavBytes sc left right).getD 34 0)
        ((renderWavBytes sc left right).getD 35 0) = 16 := by
    refine ⟨?_, ?_, ?_, ?_, ?_, ?_, ?_, ?_⟩ <;>
      simp [tagAt, le16, le32, renderWavBytes, wavHeaderBytes, u32le, u16le,
        riffTag, waveTag, dataTag, List.getD_append, List.getD_append_right]
    norm_num [UInt8.size]
  obtain ⟨t0, t8, t12, t36, s16, f22, f24, f34⟩ := hbytes
  have hfind : findDataChunk (renderWavBytes sc left right) 12 = 44 := by
    rw [findDataChunk_eq]
    rw [if_pos (show 12 + 8 < (renderWavBytes sc left right).length by
      rw [hlen]; omega)]
    rw [if_neg (show ¬ tagAt (renderWavBytes sc left right) 12 = dataTag by
      rw [t12]; decide)]
    rw [s16]
    show findDataChunk (renderWavBytes sc left right) 36 = 44
    rw [findDataChunk_eq]
    rw [if_pos (show 36 + 8 < (renderWavBytes sc left right).length by
      rw [hlen]; omega)]
    rw [if_pos t36]
  unfold parse_wav_header
  rw [hlen]
  rw [if_neg (show ¬ 44 + 4 * sc < 44 by omega)]
  rw [if_neg (show ¬ (tagAt (renderWavBytes sc left right) 0 ≠ riffTag ∨
      tagAt (renderWavBytes sc left right) 8 ≠ waveTag) by
    simp [t0, t8])]
  simp only [ge_iff_le, hfind, f22, f24, f34]
  rw [if_neg (show ¬ 44 + 4 * sc ≤ 44 by omega)]

/-- Witness for C1 at the one-frame buffer: a single silent stereo frame
round-trips with `data_start = 44`. -/
theorem c1_wav_roundtrip_witness :
    parse_wav_header (renderWavBytes 1 [0] [0]) = .ok ⟨2, 48000, 16, 44⟩ :=
  c1_wav_roundtrip.1 1 [0] [0] rfl rfl (by decide)

/-- C10: `parse_wav_header` reads the channel count, sample rate and bit
depth from the fixed byte offsets 22-23, 24-27 and 34-35, independently of
the chunk walk that locates the data chunk: whenever parsing succeeds, the
returned fields are the little-endian readings of exactly those offsets,
whatever bytes occupy them. -/
theorem c10_fields_from_fixed_offsets (data : List UInt8) (h : WavHeader)
    (hp : parse_wav_header data = .ok h) :
    h.channels = le16 (data.getD 22 0) (data.getD 23 0) ∧
    h.sample_rate =
      le32 (data.getD 24 0) (data.getD 25 0) (data.getD 26 0) (data.getD 27 0) ∧
    h.bits_per_sample = le16 (data.getD 34 0) (data.getD 35 0) := by
  simp only [parse_wav_header] at hp
  split at hp
  · simp at hp
  · split at hp
    · simp at hp
    · split at hp
      · simp at hp
      · injection hp with hh
        subst hh
        exact ⟨rfl, rfl, rfl⟩

/-- Witness for C10: a 44-byte input with valid magic whose format chunk is
replaced by a `JUNK` chunk still parses, and its fields come from the fixed
offsets (which hold 7, 123 and 9 inside the junk payload). -/
theorem c10_fields_from_fixed_offsets_witness :
    (⟨7, 123, 9, 36⟩ : WavHeader).channels =
      le16 (junkFmtWav.getD 22 0) (junkFmtWav.getD 23 0) ∧
    (⟨7, 123, 9, 36⟩ : WavHeader).sample_rate =
      le32 (junkFmtWav.getD 24 0) (junkFmtWav.getD 25 0) (junkFmtWav.getD 26 0)
        (junkFmtWav.getD 27 0) ∧
    (⟨7, 123, 9, 36⟩ : WavHeader).bits_per_sample =
      le16 (junkFmtWav.getD 34 0) (junkFmtWav.getD 35 0) :=
  c10_fields_from_fixed_offsets junkFmtWav ⟨7, 123, 9, 36⟩ (by decide)

/-- C7: for every well-formed WAV input whose parsed sample rate differs
from the fixed studio rate 48000, `wav_to_opus_ogg` returns an error (for
every requested mode and every encoder), so no packet is emitted. -/
theorem c7_rejects_non_studio_rate (encode : List Int → Except Unit (List UInt8))
    (wav_data : List UInt8) (stereo : Bool) (h : WavHeader)
    (hp : parse_wav_header wav_data = .ok h) (hr : h.sample_rate ≠ 48000) :
    wav_to_opus_ogg encode wav_data stereo =
      .error (.unsupportedSampleRate h.sample_rate) := by
  unfold wav_to_opus_ogg
  rw [hp]
  simp [SAMPLE_RATE, hr]

/-- Witness for C7: a well-formed 44100 Hz stereo 16-bit container is
rejected with the unsupported-sample-rate error. -/
theorem c7_rejects_non_studio_rate_witness :
    wav_to_opus_ogg stubEncode wav44100 true =
      .error (.unsupportedSampleRate
        (WavHeader.mk 2 44100 16 44).sample_rate) :=
  c7_rejects_non_studio_rate stubEncode wav44100 true ⟨2, 44100, 16, 44⟩
    (by decide) (by decide)

/-- C8: every 8-bit sample byte `b` is normalized to the signed 16-bit
value `(b - 128) * 256` (the bias-subtract-and-shift, which stays in `i16`
range so the shift never wraps); in particular a mono 8-bit container at
the studio rate with 10 data bytes valued 128 parses with its data at
offset 44 and normalizes to exactly 10 zero samples. -/
theorem c8_8bit_conversion :
    (∀ (pcm : List UInt8) (ch : Nat) (st : Bool),
      normalizeSamples pcm 8 ch st =
        .ok (pcm.map fun b => ((b.toNat : Int) - 128) * 256)) ∧
    parse_wav_header wav8mono = .ok ⟨1, 48000, 8, 44⟩ ∧
    normalizeSamples (wav8mono.drop 44) 8 1 false =
      .ok (List.replicate 10 0) := by
  refine ⟨?_, by decide, by decide⟩
  intro pcm ch st
  simp only [normalizeSamples]
  norm_num
  intro b _
  have hx : (b.toNat : Int) < 256 := by exact_mod_cast b.toNat_lt
  have hx0 : (0 : Int) ≤ (b.toNat : Int) := Int.ofNat_nonneg _
  apply i16Wrap_eq_of_range <;> omega

/-- C5 (code bug): at `sample_count = 2^30` the size-field computation of
`render_midi_to_wav` wraps silently instead of failing: the `as u32` cast
makes the RIFF size field 36 and the data size field 0 although the true
sizes `36 + 4 * 2^30` and `4 * 2^30` exceed the 32-bit range, and the
writer (which is total) still produces the header with the wrapped
fields. -/
theorem c5_size_fields_wrap_silently :
    riffSize (2 ^ 30) = 36 ∧ dataSize (2 ^ 30) = 0 ∧
    (wavHeaderBytes (2 ^ 30)).getD 4 0 = 36 ∧
    (wavHeaderBytes (2 ^ 30)).getD 40 0 = 0 ∧
    4294967296 ≤ 36 + 2 ^ 30 * 4 := by decide

/-- Counterexample for C6: a 44-byte input with valid magic tags and no
`data` chunk anywhere (it contains no byte 100 = `d` at all) on which
`parse_wav_header` nevertheless succeeds: its single `JUNK` chunk's
declared size 17 lands the chunk walk on offset 37, inside the final 8
bytes, where the loop stops without reporting the missing data chunk. -/
theorem c6_counterexample :
    parse_wav_header junkTailWav = .ok ⟨0, 0, 0, 37⟩ ∧
    (100 : UInt8) ∉ junkTailWav := by decide

/-- Counterexample for C4: on a stereo 8-bit source with mono output
requested, the normalization step keeps both channels of the frame
(bytes 1 and 2 both become samples) instead of only the left channel;
the stereo 8-bit container `wav8stereo` exhibits exactly this region. -/
theorem c4_counterexample :
    parse_wav_header wav8stereo = .ok ⟨2, 48000, 8, 44⟩ ∧
    wav8stereo.drop 44 = [1, 2] ∧
    normalizeSamples [1, 2] 8 2 false = .ok [-32512, -32256] ∧
    normalizeSamples [1, 2] 8 2 false ≠ .ok [-32512] := by decide

/-- Counterexample for C9: a 16-bit input whose header declares 0 channels
and whose 1-byte sample region is not a multiple of `2 * 0` bytes does not
get its remainder silently discarded: `chunks_exact(0)` panics (modelled
as the `panicZeroChunkSize` error), aborting `wav_to_opus_ogg`. -/
theorem c9_counterexample :
    wav_to_opus_ogg stubEncode wav16zeroch true = .error .panicZeroChunkSize ∧
    (wav16zeroch.drop 44).length = 1 := by decide

/-- Counterexample for C2: the mono 8-bit container `wav8mono` renders 10
true samples, whose single short chunk is padded before encoding, yet the
granule position emitted with that chunk's audio packet and with the end
marker is 960, advancing the externally-visible counter well beyond the
true rendered sample count 10. -/
theorem c2_counterexample :
    wav_to_opus_ogg stubEncode wav8mono false =
      .ok [⟨create_opus_header 1 48000, .endPage, 0⟩,
           ⟨create_opus_comment, .endPage, 0⟩,
           ⟨[], .normalPacket, 960⟩,
           ⟨[], .endStream, 960⟩] ∧
    (wav8mono.drop 44).length = 10 ∧ 10 < 960 := by decide

/-! Properties of the encoding loop. -/

theorem satAdd64_le_max (g b : Nat) : satAdd64 g b ≤ 18446744073709551615 := by
  unfold satAdd64
  omega

theorem le_satAdd64 {g : Nat} (b : Nat) (hg : g ≤ 18446744073709551615) :
    g ≤ satAdd64 g b := by
  unfold satAdd64
  omega

theorem satAdd64_frame_step (g n : Nat) :
    min (satAdd64 g FRAME_SIZE + n * FRAME_SIZE) 18446744073709551615 =
    min (g + (n + 1) * FRAME_SIZE) 18446744073709551615 := by
  unfold satAdd64 FRAME_SIZE
  omega

theorem satAdd64_frame_first (g : Nat) :
    satAdd64 g FRAME_SIZE = min (g + (0 + 1) * FRAME_SIZE) 18446744073709551615 := by
  unfold satAdd64 FRAME_SIZE
  omega

theorem encodeLoop_ok (e : List Int → Except Unit (List UInt8)) (ch : Nat) :
    ∀ (cs : List (List Int)) (g : Nat) (ps : List OggPacket) (gf : Nat),
      g ≤ 18446744073709551615 →
      encodeLoop e cs ch g = .ok (ps, gf) →
      ps.length = cs.length ∧
      gf = min (g + cs.length * FRAME_SIZE) 18446744073709551615 ∧
      (∀ i, i < ps.length →
        (ps.getD i ⟨[], .endStream, 0⟩).granule =
          min (g + (i + 1) * FRAME_SIZE) 18446744073709551615 ∧
        (ps.getD i ⟨[], .endStream, 0⟩).endInfo = .normalPacket) := by
  intro cs
  induction cs with
  | nil =>
    intro g ps gf hg h
    simp only [encodeLoop, Except.ok.injEq, Prod.mk.injEq] at h
    obtain ⟨hps, hgf⟩ := h
    subst hps
    subst hgf
    refine ⟨rfl, by simp only [List.length_nil]; unfold FRAME_SIZE; omega, ?_⟩
    intro i hi
    simp at hi
  | cons c rest ih =>
    intro g ps gf hg h
    simp only [encodeLoop] at h
    cases henc : e (pad_chunk c ch) with
    | error u => rw [henc] at h; simp at h
    | ok packet =>
      rw [henc] at h
      cases hrec : encodeLoop e rest ch (satAdd64 g FRAME_SIZE) with
      | error e2 => rw [hrec] at h; simp at h
      | ok pr =>
        rw [hrec] at h
        cases pr with
        | mk ps2 gf2 =>
          simp only [Except.ok.injEq, Prod.mk.injEq] at h
          obtain ⟨hps, hgf⟩ := h
          subst hps
          subst hgf
          have hg2 : satAdd64 g FRAME_SIZE ≤ 18446744073709551615 :=
            satAdd64_le_max _ _
          obtain ⟨ihlen, ihgf, ihidx⟩ := ih (satAdd64 g FRAME_SIZE) ps2 gf2 hg2 hrec
          refine ⟨by simp [ihlen], ?_, ?_⟩
          · rw [ihgf]
            simp only [List.length_cons]
            exact satAdd64_frame_step g rest.length
          · intro i hi
            cases i with
            | zero =>
              exact ⟨satAdd64_frame_first g, rfl⟩
            | succ i =>
              have hi2 : i < ps2.length := by
                simpa using hi
              obtain ⟨ha, hb⟩ := ihidx i hi2
              rw [List.getD_cons_succ]
              exact ⟨by rw [ha]; exact satAdd64_frame_step g (i + 1), hb⟩

theorem encodeLoop_chain (e : List Int → Except Unit (List UInt8)) (ch : Nat) :
    ∀ (cs : List (List Int)) (g : Nat) (ps : List OggPacket) (gf : Nat),
      g ≤ 18446744073709551615 →
      encodeLoop e cs ch g = .ok (ps, gf) →
      List.Chain' (· ≤ ·) (g :: ps.map OggPacket.granule) ∧
      (g :: ps.map OggPacket.granule).getLast? = some gf := by
  intro cs
  induction cs with
  | nil =>
    intro g ps gf hg h
    simp only [encodeLoop, Except.ok.injEq, Prod.mk.injEq] at h
    obtain ⟨hps, hgf⟩ := h
    subst hps
    subst hgf
    exact ⟨List.chain'_singleton g, rfl⟩
  | cons c rest ih =>
    intro g ps gf hg h
    simp only [encodeLoop] at h
    cases henc : e (pad_chunk c ch) with
    | error u => rw [henc] at h; simp at h
    | ok packet =>
      rw [henc] at h
      cases hrec : encodeLoop e rest ch (satAdd64 g FRAME_SIZE) with
      | error e' => rw [hrec] at h; simp at h
      | ok pr =>
        rw [hrec] at h
        cases pr with
        | mk ps' gf' =>
          simp only [Except.ok.injEq, Prod.mk.injEq] at h
          obtain ⟨hps, hgf⟩ := h
          subst hps
          subst hgf
          have hg' : satAdd64 g FRAME_SIZE ≤ 18446744073709551615 :=
            Nat.min_le_right _ _
          obtain ⟨ihc, ihl⟩ := ih (satAdd64 g FRAME_SIZE) ps' gf' hg' hrec
          constructor
          · rw [List.map_cons, List.chain'_cons]
            exact ⟨by simp [satAdd64]; omega, ihc⟩
          · rw [List.map_cons, List.getLast?_cons_cons]
            exact ihl

theorem chain'_cons_snoc_last {l : List Nat} {a x : Nat}
    (hc : List.Chain' (· ≤ ·) (a :: l))
    (hl : (a :: l).getLast? = some x) :
    List.Chain' (· ≤ ·) ((a :: l) ++ [x]) := by
  rw [List.chain'_append]
  refine ⟨hc, List.chain'_singleton x, ?_⟩
  intro y hy z hz
  simp only [List.head?_cons, Option.mem_def, Option.some.injEq] at hz
  subst hz
  rw [hl] at hy
  simp only [Option.mem_def, Option.some.injEq] at hy
  subst hy
  exact Nat.le_refl _

/-- C3: whenever `wav_to_opus_ogg` succeeds, the granule positions over the
whole packet stream are non-decreasing, the i-th audio packet (0-based)
carries granule position `(i+1) * 960` accumulated with saturating `u64`
addition, and the final end-of-stream packet carries the final counter
value, `960` times the number of audio packets (saturating). -/
theorem c3_granule_positions (encode : List Int → Except Unit (List UInt8))
    (wav_data : List UInt8) (stereo : Bool) (ps : List OggPacket)
    (h : wav_to_opus_ogg encode wav_data stereo = .ok ps) :
    List.Chain' (· ≤ ·) (ps.map OggPacket.granule) ∧
    (∀ i, i < (audioPackets ps).length →
      ((audioPackets ps).getD i ⟨[], .endStream, 0⟩).granule =
        min ((i + 1) * FRAME_SIZE) 18446744073709551615) ∧
    ps.getLast? = some ⟨[], .endStream,
      min ((audioPackets ps).length * FRAME_SIZE) 18446744073709551615⟩ := by
  unfold wav_to_opus_ogg at h
  split at h
  · simp at h
  · rename_i xp wav_header hp
    split at h
    · simp at h
    · rename_i hrate
      split at h
      · simp at h
      · rename_i xn samples hn
        split at h
        · simp at h
        · rename_i xl audio gf hloop
          simp only [Except.ok.injEq] at h
          subst h
          obtain ⟨hlen, hgf, hidx⟩ :=
            encodeLoop_ok encode _ _ 0 audio gf (by omega) hloop
          obtain ⟨hchain, hlast⟩ :=
            encodeLoop_chain encode _ _ 0 audio gf (by omega) hloop
          have hmem : ∀ p ∈ audio, p.endInfo = EndInfo.normalPacket := by
            intro p hpmem
            obtain ⟨i, hi, hip⟩ := List.mem_iff_getElem.mp hpmem
            have h2 := (hidx i hi).2
            rw [List.getD_eq_getElem _ _ hi] at h2
            rw [← hip]
            exact h2
          have fpred1 :
              ¬ (isAudio
                (⟨create_opus_header (if stereo then 2 else 1) SAMPLE_RATE,
                  EndInfo.endPage, 0⟩ : OggPacket) = true) := by simp [isAudio]
          have fpred2 :
              ¬ (isAudio (⟨create_opus_comment, EndInfo.endPage, 0⟩ :
                OggPacket) = true) := by simp [isAudio]
          have fpred3 :
              ¬ (isAudio (⟨[], EndInfo.endStream, gf⟩ : OggPacket) = true) := by
            simp [isAudio]
          have haudio :
              audioPackets
                (⟨create_opus_header (if stereo then 2 else 1) SAMPLE_RATE,
                   .endPage, 0⟩ ::
                 ⟨create_opus_comment, .endPage, 0⟩ ::
                 (audio ++ [⟨[], .endStream, gf⟩])) = audio := by
            unfold audioPackets
            rw [List.filter_cons_of_neg fpred1,
              List.filter_cons_of_neg fpred2, List.filter_append,
              List.filter_cons_of_neg fpred3, List.filter_nil,
              List.filter_eq_self.mpr (by
                intro p hpmem
                simp [isAudio, hmem p hpmem]),
              List.append_nil]
          rw [haudio]
          refine ⟨?_, ?_, ?_⟩
          · simp only [List.map_cons, List.map_append, List.map_nil]
            rw [List.chain'_cons]
            refine ⟨Nat.le_refl 0, ?_⟩
            show List.Chain' (· ≤ ·)
              ((0 : Nat) :: (audio.map OggPacket.granule ++ [gf]))
            rw [← List.cons_append]
            exact chain'_cons_snoc_last hchain hlast
          · intro i hi
            have := (hidx i hi).1
            rw [this]
            congr 1
            omega
          · have hgfv : gf =
                min (audio.length * FRAME_SIZE) 18446744073709551615 := by
              rw [hgf, hlen]
              congr 1
              omega
            show ((⟨create_opus_header (if stereo then 2 else 1) SAMPLE_RATE,
                  EndInfo.endPage, 0⟩ ::
                ⟨create_opus_comment, EndInfo.endPage, 0⟩ :: audio) ++
                [(⟨[], EndInfo.endStream, gf⟩ : OggPacket)]).getLast? = _
            rw [List.getLast?_concat, hgfv]

/-- Witness for C3 on the concrete one-chunk stream of `wav8mono`. -/
theorem c3_granule_positions_witness :
    List.Chain' (· ≤ ·) (wav8monoPackets.map OggPacket.granule) ∧
    (∀ i, i < (audioPackets wav8monoPackets).length →
      ((audioPackets wav8monoPackets).getD i ⟨[], .endStream, 0⟩).granule =
        min ((i + 1) * FRAME_SIZE) 18446744073709551615) ∧
    wav8monoPackets.getLast? = some ⟨[], .endStream,
      min ((audioPackets wav8monoPackets).length * FRAME_SIZE)
        18446744073709551615⟩ :=
  c3_granule_positions stubEncode wav8mono false wav8monoPackets (by decide)

/-! Chunking lemmas. -/

theorem chunksOf_length {α : Type _} (s : Nat) (hs : 0 < s) :
    ∀ (n : Nat) (l : List α), l.length ≤ n →
      (chunksOf s l).length = (l.length + s - 1) / s := by
  intro n
  induction n with
  | zero =>
    intro l hl
    have hnil : l = [] := List.length_eq_zero.mp (by omega)
    subst hnil
    rw [chunksOf_nil]
    simp [Nat.div_eq_of_lt (show s - 1 < s by omega)]
  | succ n ih =>
    intro l hl
    cases l with
    | nil =>
      rw [chunksOf_nil]
      simp [Nat.div_eq_of_lt (show s - 1 < s by omega)]
    | cons a t =>
      simp only [List.length_cons] at hl
      rw [chunksOf_cons, if_neg (by omega)]
      simp only [List.length_cons]
      rw [ih ((a :: t).drop s) (by
        simp only [List.length_drop, List.length_cons]
        omega)]
      simp only [List.length_drop, List.length_cons]
      have h1 : t.length + 1 + s - 1 = (t.length + 1 - 1) + s := by omega
      rw [h1, Nat.add_div_right _ hs]
      by_cases hc : s ≤ t.length + 1
      · have h2 : t.length + 1 - s + s - 1 = t.length + 1 - 1 := by omega
        rw [h2]
      · have h2 : t.length + 1 - s = 0 := by omega
        rw [h2, Nat.div_eq_of_lt (show 0 + s - 1 < s by omega),
          Nat.div_eq_of_lt (show t.length + 1 - 1 < s by omega)]

theorem chunksExact_length_mem {α : Type _} (s : Nat) :
    ∀ (n : Nat) (l : List α), l.length ≤ n →
      ∀ c ∈ chunksExact s l, c.length = s := by
  intro n
  induction n with
  | zero =>
    intro l hl c hc
    have hnil : l = [] := List.length_eq_zero.mp (by omega)
    subst hnil
    rw [chunksExact_eq, if_neg (by omega)] at hc
    simp at hc
  | succ n ih =>
    intro l hl c hc
    rw [chunksExact_eq] at hc
    by_cases hg : s ≤ l.length ∧ 0 < s
    · rw [if_pos hg] at hc
      rcases List.mem_cons.mp hc with hc1 | hc2
      · subst hc1
        rw [List.length_take]
        omega
      · exact ih (l.drop s)
          (by simp only [List.length_drop]; omega) c hc2
    · rw [if_neg hg] at hc
      simp at hc

theorem chunksExact_take {α : Type _} (s : Nat) :
    ∀ (n : Nat) (l : List α), l.length ≤ n →
      chunksExact s l = chunksExact s (l.take (s * (l.length / s))) := by
  intro n
  induction n with
  | zero =>
    intro l hl
    have hnil : l = [] := List.length_eq_zero.mp (by omega)
    subst hnil
    rw [List.take_nil]
  | succ n ih =>
    intro l hl
    by_cases hg : s ≤ l.length ∧ 0 < s
    · have hq1 : 1 ≤ l.length / s := (Nat.one_le_div_iff hg.2).mpr hg.1
      have hqle : s * (l.length / s) ≤ l.length := by
        calc s * (l.length / s) = l.length / s * s := Nat.mul_comm _ _
        _ ≤ l.length := Nat.div_mul_le_self _ _
      have htlen : (l.take (s * (l.length / s))).length = s * (l.length / s) := by
        rw [List.length_take]
        omega
      rw [chunksExact_eq s l, if_pos hg, chunksExact_eq s (l.take _),
        if_pos (by
          constructor
          · rw [htlen]
            calc s = s * 1 := (Nat.mul_one s).symm
            _ ≤ s * (l.length / s) := Nat.mul_le_mul_left s hq1
          · exact hg.2)]
      congr 1
      · rw [List.take_take]
        congr 1
        have : s ≤ s * (l.length / s) := by
          calc s = s * 1 := (Nat.mul_one s).symm
          _ ≤ s * (l.length / s) := Nat.mul_le_mul_left s hq1
        omega
      · rw [List.drop_take]
        have hq : l.length / s = (l.length - s) / s + 1 := by
          have h1 := Nat.add_div_right (l.length - s) hg.2
          rw [Nat.sub_add_cancel hg.1] at h1
          exact h1
        rw [hq, Nat.mul_succ, Nat.add_sub_cancel]
        have ihd := ih (l.drop s) (by simp only [List.length_drop]; omega)
        rw [List.length_drop] at ihd
        exact ihd
    · rw [chunksExact_eq s l, if_neg hg]
      rw [chunksExact_eq s (l.take _), if_neg (by
        rw [List.length_take]
        omega)]

/-! Pointwise flat-map lemmas. -/

theorem flatMap_congr_mem {α β : Type _} :
    ∀ (l : List α) (f g : α → List β), (∀ c ∈ l, f c = g c) →
      l.flatMap f = l.flatMap g := by
  intro l
  induction l with
  | nil => intro f g _; rfl
  | cons a t ih =>
    intro f g h
    rw [List.flatMap_cons, List.flatMap_cons, h a (List.mem_cons_self a t),
      ih f g (fun c hc => h c (List.mem_cons_of_mem a hc))]

theorem flatMap_singleton_eq_map {α β : Type _} (g : α → β) :
    ∀ (l : List α) (f : α → List β), (∀ c ∈ l, f c = [g c]) →
      l.flatMap f = l.map g := by
  intro l
  induction l with
  | nil => intro f _; rfl
  | cons a t ih =>
    intro f h
    rw [List.flatMap_cons, List.map_cons, h a (List.mem_cons_self a t),
      ih f (fun c hc => h c (List.mem_cons_of_mem a hc))]
    rfl

/-! Byte-access lemmas. -/

theorem getD_drop (l : List UInt8) (n k : Nat) (d : UInt8) :
    (l.drop n).getD k d = l.getD (n + k) d := by
  simp [List.getD, List.getElem?_drop]

theorem tagAt_drop (l : List UInt8) (n : Nat) :
    tagAt l n = tagAt (l.drop n) 0 := by
  unfold tagAt
  rw [getD_drop, getD_drop, getD_drop, getD_drop]
  norm_num

theorem le32_ofNat {n : Nat} (h : n < 4294967296) :
    le32 (UInt8.ofNat n) (UInt8.ofNat (n / 256)) (UInt8.ofNat (n / 65536))
      (UInt8.ofNat (n / 16777216)) = n := by
  unfold le32
  have h0 : (UInt8.ofNat n).toNat = n % 256 := rfl
  have h1 : (UInt8.ofNat (n / 256)).toNat = n / 256 % 256 := rfl
  have h2 : (UInt8.ofNat (n / 65536)).toNat = n / 65536 % 256 := rfl
  have h3 : (UInt8.ofNat (n / 16777216)).toNat = n / 16777216 % 256 := rfl
  rw [h0, h1, h2, h3]
  omega

/-! Amended claim theorems. -/

/-- C2 (amended): the granule counter advances by the fixed nominal frame
duration (`FRAME_SIZE = 960`) per chunk whether or not the final short
chunk was padded, so on a normalized sample sequence whose final chunk is
short the final counter equals the chunk count times 960 and strictly
exceeds the true rendered per-channel sample count — by at most one
nominal frame.  (The length bound is Rust's allocation limit
`isize::MAX`, under which the saturating addition never saturates.) -/
theorem c2_padding_and_granule (encode : List Int → Except Unit (List UInt8))
    (samples : List Int) (channels : Nat) (ps : List OggPacket) (gf : Nat)
    (hch : channels = 1 ∨ channels = 2)
    (hlen63 : samples.length ≤ 9223372036854775807)
    (hshort : samples.length % (FRAME_SIZE * channels) ≠ 0)
    (hloop : encodeLoop encode (chunksOf (FRAME_SIZE * channels) samples)
      channels 0 = .ok (ps, gf)) :
    gf = (chunksOf (FRAME_SIZE * channels) samples).length * FRAME_SIZE ∧
    samples.length / channels < gf ∧
    gf ≤ samples.length / channels + FRAME_SIZE := by
  obtain ⟨hplen, hgf, _⟩ :=
    encodeLoop_ok encode channels _ 0 ps gf (by omega) hloop
  have hspos : 0 < FRAME_SIZE * channels := by
    rcases hch with h | h <;> subst h <;> decide
  have hn := chunksOf_length (FRAME_SIZE * channels) hspos samples.length
    samples (Nat.le_refl _)
  rw [hn] at hgf
  rw [hn]
  rcases hch with h | h <;> subst h <;>
    unfold FRAME_SIZE at hgf hshort ⊢ <;> omega

/-- Witness for C2 (amended) on a 10-sample mono sequence: the single
short chunk yields final granule 960, which exceeds the true count 10 by
less than one frame. -/
theorem c2_padding_and_granule_witness :
    960 = (chunksOf (FRAME_SIZE * 1) (List.replicate 10 (0 : Int))).length *
      FRAME_SIZE ∧
    (List.replicate 10 (0 : Int)).length / 1 < 960 ∧
    960 ≤ (List.replicate 10 (0 : Int)).length / 1 + FRAME_SIZE :=
  c2_padding_and_granule stubEncode (List.replicate 10 0) 1
    [⟨[], .normalPacket, 960⟩] 960 (Or.inl rfl) (by decide) (by decide)
    (by decide)

/-- C9 (amended): for every 16-bit input with a non-zero declared channel
count, normalization never fails and its result only depends on the
longest prefix that is a whole number of `2 * channel_count`-byte frames:
the trailing remainder bytes are silently discarded and contribute no
samples.  (With a declared channel count of zero the code panics instead,
see the counterexample.) -/
theorem c9_trailing_bytes_dropped (pcm_data : List UInt8)
    (channel_count : Nat) (stereo : Bool) (hch : 0 < channel_count) :
    (normalizeSamples pcm_data 16 channel_count stereo).isOk = true ∧
    normalizeSamples pcm_data 16 channel_count stereo =
      normalizeSamples
        (pcm_data.take
          (2 * channel_count * (pcm_data.length / (2 * channel_count))))
        16 channel_count stereo := by
  have h16 : ∀ pcm : List UInt8,
      normalizeSamples pcm 16 channel_count stereo =
        .ok ((chunksExact (2 * channel_count) pcm).flatMap fun chunk =>
          ((chunksExact 2 chunk).map fun sample =>
            i16FromLeBytes (sample.getD 0 0) (sample.getD 1 0)).take
            (if stereo then 2 else 1)) := by
    intro pcm
    unfold normalizeSamples
    rw [if_pos rfl, if_neg (show ¬ channel_count = 0 by omega)]
  have h := chunksExact_take (2 * channel_count) pcm_data.length pcm_data
    (Nat.le_refl _)
  rw [h16 pcm_data, h16 (pcm_data.take _), ← h]
  exact ⟨rfl, rfl⟩

/-- Witness for C9 (amended): a mono 16-bit region of 3 bytes normalizes
without error and equals the normalization of its first 2 bytes. -/
theorem c9_trailing_bytes_dropped_witness :
    (normalizeSamples [1, 2, 3] 16 1 true).isOk = true ∧
    normalizeSamples [1, 2, 3] 16 1 true =
      normalizeSamples
        (([1, 2, 3] : List UInt8).take
          (2 * 1 * (([1, 2, 3] : List UInt8).length / (2 * 1)))) 16 1 true :=
  c9_trailing_bytes_dropped [1, 2, 3] 1 true (by decide)

/-- C4 (amended): the 16-bit normalization honors the requested mode on a
stereo source — stereo output keeps both channels of each full frame, and
mono output keeps exactly the left (first) channel of each full frame
verbatim, with no averaging — but the 8-bit path ignores the requested
mode entirely: every byte is converted to a sample regardless of the
declared channel count or the requested mode. -/
theorem c4_channel_mode :
    (∀ pcm_data : List UInt8,
      normalizeSamples pcm_data 16 2 false =
        .ok ((chunksExact 4 pcm_data).map leftSampleOf)) ∧
    (∀ pcm_data : List UInt8,
      normalizeSamples pcm_data 16 2 true =
        .ok ((chunksExact 4 pcm_data).flatMap bothSamplesOf)) ∧
    (∀ (pcm_data : List UInt8) (channel_count : Nat),
      normalizeSamples pcm_data 8 channel_count true =
        normalizeSamples pcm_data 8 channel_count false) := by
  refine ⟨?_, ?_, fun _ _ => rfl⟩
  · intro pcm
    unfold normalizeSamples
    norm_num
    apply flatMap_singleton_eq_map
    intro c hc
    have h4 := chunksExact_length_mem 4 pcm.length pcm (Nat.le_refl _) c hc
    obtain ⟨b0, b1, b2, b3, rfl⟩ :
        ∃ b0 b1 b2 b3, c = [b0, b1, b2, b3] := by
      rcases c with _ | ⟨b0, _ | ⟨b1, _ | ⟨b2, _ | ⟨b3, _ | ⟨b4, t⟩⟩⟩⟩⟩ <;>
        first
          | exact ⟨_, _, _, _, rfl⟩
          | (simp only [List.length_nil, List.length_cons] at h4; omega)
    rfl
  · intro pcm
    unfold normalizeSamples
    norm_num
    apply flatMap_congr_mem
    intro c hc
    have h4 := chunksExact_length_mem 4 pcm.length pcm (Nat.le_refl _) c hc
    obtain ⟨b0, b1, b2, b3, rfl⟩ :
        ∃ b0 b1 b2 b3, c = [b0, b1, b2, b3] := by
      rcases c with _ | ⟨b0, _ | ⟨b1, _ | ⟨b2, _ | ⟨b3, _ | ⟨b4, t⟩⟩⟩⟩⟩ <;>
        first
          | exact ⟨_, _, _, _, rfl⟩
          | (simp only [List.length_nil, List.length_cons] at h4; omega)
    rfl

set_option maxHeartbeats 1000000 in
/-- C6 (amended): `parse_wav_header` rejects an input shorter than 44
bytes with the too-short error; rejects an input of sufficient length
whose magic tags mismatch with the invalid-file error; reports the
no-data-chunk error exactly when the chunk walk's final offset reaches or
passes the input length (which is how a declared chunk size pointing past
the input surfaces); and it skips a well-formed unknown chunk placed
between the format chunk and the data chunk transparently, returning the
offset just past the data chunk header.  However — unlike the original
claim — when the walk stops inside the final 8 bytes of the input without
having found a data chunk, parsing succeeds with `data_start` pointing at
that offset rather than erroring (see the counterexample). -/
theorem c6_parser_error_cases :
    (∀ data : List UInt8, data.length < 44 →
      parse_wav_header data = .error .wavTooShort) ∧
    (∀ data : List UInt8, 44 ≤ data.length →
      (tagAt data 0 ≠ riffTag ∨ tagAt data 8 ≠ waveTag) →
      parse_wav_header data = .error .invalidWav) ∧
    (∀ data : List UInt8, 44 ≤ data.length →
      tagAt data 0 = riffTag → tagAt data 8 = waveTag →
      data.length ≤ findDataChunk data 12 →
      parse_wav_header data = .error .noDataChunk) ∧
    (∀ (t0 t1 t2 t3 : UInt8) (junk body : List UInt8),
      [t0, t1, t2, t3] ≠ dataTag → junk.length < 4294967296 → body ≠ [] →
      parse_wav_header (wavWithExtraChunk t0 t1 t2 t3 junk body) =
        .ok ⟨2, 48000, 16, 52 + junk.length⟩) := by
  refine ⟨?_, ?_, ?_, ?_⟩
  · intro data h
    unfold parse_wav_header
    rw [if_pos h]
  · intro data h hmagic
    unfold parse_wav_header
    rw [if_neg (by omega), if_pos hmagic]
  · intro data h h0 h8 hfind
    unfold parse_wav_header
    rw [if_neg (by omega)]
    rw [if_neg (show ¬ (tagAt data 0 ≠ riffTag ∨ tagAt data 8 ≠ waveTag) by
      simp [h0, h8])]
    show (if findDataChunk data 12 ≥ data.length then
        Except.error AudioErr.noDataChunk
      else
        Except.ok
          (WavHeader.mk (le16 (data.getD 22 0) (data.getD 23 0))
            (le32 (data.getD 24 0) (data.getD 25 0) (data.getD 26 0)
              (data.getD 27 0))
            (le16 (data.getD 34 0) (data.getD 35 0))
            (findDataChunk data 12))) = Except.error AudioErr.noDataChunk
    rw [if_pos (by omega)]
  · intro t0 t1 t2 t3 junk body htag hjl hbody
    have hbl : 0 < body.length := List.length_pos.mpr hbody
    have hlen : (wavWithExtraChunk t0 t1 t2 t3 junk body).length =
        52 + junk.length + body.length := by
      have h1 : wavPreamble.length = 36 := rfl
      have h2 : (u32le junk.length).length = 4 := rfl
      have h3 : (u32le body.length).length = 4 := rfl
      have h4 : dataTag.length = 4 := rfl
      unfold wavWithExtraChunk
      simp only [List.length_append, h1, h2, h3, h4, List.length_cons,
        List.length_nil]
      omega
    have hbytes :
        tagAt (wavWithExtraChunk t0 t1 t2 t3 junk body) 0 = riffTag ∧
        tagAt (wavWithExtraChunk t0 t1 t2 t3 junk body) 8 = waveTag ∧
        tagAt (wavWithExtraChunk t0 t1 t2 t3 junk body) 12 =
          [102, 109, 116, 32] ∧
        le32 ((wavWithExtraChunk t0 t1 t2 t3 junk body).getD 16 0)
          ((wavWithExtraChunk t0 t1 t2 t3 junk body).getD 17 0)
          ((wavWithExtraChunk t0 t1 t2 t3 junk body).getD 18 0)
          ((wavWithExtraChunk t0 t1 t2 t3 junk body).getD 19 0) = 16 ∧
        le16 ((wavWithExtraChunk t0 t1 t2 t3 junk body).getD 22 0)
          ((wavWithExtraChunk t0 t1 t2 t3 junk body).getD 23 0) = 2 ∧
        le32 ((wavWithExtraChunk t0 t1 t2 t3 junk body).getD 24 0)
          ((wavWithExtraChunk t0 t1 t2 t3 junk body).getD 25 0)
          ((wavWithExtraChunk t0 t1 t2 t3 junk body).getD 26 0)
          ((wavWithExtraChunk t0 t1 t2 t3 junk body).getD 27 0) = 48000 ∧
        le16 ((wavWithExtraChunk t0 t1 t2 t3 junk body).getD 34 0)
          ((wavWithExtraChunk t0 t1 t2 t3 junk body).getD 35 0) = 16 ∧
        tagAt (wavWithExtraChunk t0 t1 t2 t3 junk body) 36 =
          [t0, t1, t2, t3] := by
      refine ⟨?_, ?_, ?_, ?_, ?_, ?_, ?_, ?_⟩ <;>
        simp [tagAt, le16, le32, wavWithExtraChunk, wavPreamble, u32le, u16le,
          riffTag, waveTag, dataTag, List.getD_append, List.getD_append_right]
      norm_num [UInt8.size]
    obtain ⟨ht0, ht8, ht12, hs16, f22, f24, f34, ht36⟩ := hbytes
    have hsz :
        le32 ((wavWithExtraChunk t0 t1 t2 t3 junk body).getD 40 0)
          ((wavWithExtraChunk t0 t1 t2 t3 junk body).getD 41 0)
          ((wavWithExtraChunk t0 t1 t2 t3 junk body).getD 42 0)
          ((wavWithExtraChunk t0 t1 t2 t3 junk body).getD 43 0) =
          junk.length := by
      have e0 : (wavWithExtraChunk t0 t1 t2 t3 junk body).getD 40 0 =
          UInt8.ofNat junk.length := by
        simp [wavWithExtraChunk, wavPreamble, u32le, u16le, riffTag, waveTag,
          dataTag, List.getD_append, List.getD_append_right]
      have e1 : (wavWithExtraChunk t0 t1 t2 t3 junk body).getD 41 0 =
          UInt8.ofNat (junk.length / 256) := by
        simp [wavWithExtraChunk, wavPreamble, u32le, u16le, riffTag, waveTag,
          dataTag, List.getD_append, List.getD_append_right]
      have e2 : (wavWithExtraChunk t0 t1 t2 t3 junk body).getD 42 0 =
          UInt8.ofNat (junk.length / 65536) := by
        simp [wavWithExtraChunk, wavPreamble, u32le, u16le, riffTag, waveTag,
          dataTag, List.getD_append, List.getD_append_right]
      have e3 : (wavWithExtraChunk t0 t1 t2 t3 junk body).getD 43 0 =
          UInt8.ofNat (junk.length / 16777216) := by
        simp [wavWithExtraChunk, wavPreamble, u32le, u16le, riffTag, waveTag,
          dataTag, List.getD_append, List.getD_append_right]
      rw [e0, e1, e2, e3]
      exact le32_ofNat hjl
    have hdrop : (wavWithExtraChunk t0 t1 t2 t3 junk body).drop
        (44 + junk.length) = dataTag ++ u32le body.length ++ body := by
      have hassoc : wavWithExtraChunk t0 t1 t2 t3 junk body =
          (wavPreamble ++ [t0, t1, t2, t3] ++ u32le junk.length ++ junk) ++
          (dataTag ++ u32le body.length ++ body) := by
        simp [wavWithExtraChunk, List.append_assoc]
      have hplen :
          (wavPreamble ++ [t0, t1, t2, t3] ++ u32le junk.length ++
            junk).length = 44 + junk.length := by
        simp [wavPreamble, u32le, u16le, riffTag, waveTag, dataTag,
          List.length_append]
        omega
      rw [hassoc, ← hplen, List.drop_left]
    have ht44 : tagAt (wavWithExtraChunk t0 t1 t2 t3 junk body)
        (44 + junk.length) = dataTag := by
      rw [tagAt_drop, hdrop]
      rfl
    have hfind : findDataChunk (wavWithExtraChunk t0 t1 t2 t3 junk body) 12 =
        52 + junk.length := by
      rw [findDataChunk_eq]
      rw [if_pos (by rw [hlen]; omega)]
      rw [if_neg (show ¬ tagAt (wavWithExtraChunk t0 t1 t2 t3 junk body) 12 =
        dataTag by rw [ht12]; decide)]
      rw [hs16]
      show findDataChunk (wavWithExtraChunk t0 t1 t2 t3 junk body) 36 =
        52 + junk.length
      rw [findDataChunk_eq]
      rw [if_pos (by rw [hlen]; omega)]
      rw [if_neg (show ¬ tagAt (wavWithExtraChunk t0 t1 t2 t3 junk body) 36 =
        dataTag by rw [ht36]; exact htag)]
      rw [hsz]
      show findDataChunk (wavWithExtraChunk t0 t1 t2 t3 junk body)
        (44 + junk.length) = 52 + junk.length
      rw [findDataChunk_eq]
      rw [if_pos (by rw [hlen]; omega)]
      rw [if_pos ht44]
      omega
    unfold parse_wav_header
    rw [hlen]
    rw [if_neg (show ¬ (52 + junk.length + body.length < 44) by omega)]
    rw [if_neg (show ¬ (tagAt (wavWithExtraChunk t0 t1 t2 t3 junk body) 0 ≠
        riffTag ∨
        tagAt (wavWithExtraChunk t0 t1 t2 t3 junk body) 8 ≠ waveTag) by
      simp [ht0, ht8])]
    show (if findDataChunk (wavWithExtraChunk t0 t1 t2 t3 junk body) 12 ≥
        52 + junk.length + body.length then
        Except.error AudioErr.noDataChunk
      else
        Except.ok
          (WavHeader.mk
            (le16 ((wavWithExtraChunk t0 t1 t2 t3 junk body).getD 22 0)
              ((wavWithExtraChunk t0 t1 t2 t3 junk body).getD 23 0))
            (le32 ((wavWithExtraChunk t0 t1 t2 t3 junk body).getD 24 0)
              ((wavWithExtraChunk t0 t1 t2 t3 junk body).getD 25 0)
              ((wavWithExtraChunk t0 t1 t2 t3 junk body).getD 26 0)
              ((wavWithExtraChunk t0 t1 t2 t3 junk body).getD 27 0))
            (le16 ((wavWithExtraChunk t0 t1 t2 t3 junk body).getD 34 0)
              ((wavWithExtraChunk t0 t1 t2 t3 junk body).getD 35 0))
            (findDataChunk (wavWithExtraChunk t0 t1 t2 t3 junk body) 12))) =
      Except.ok ⟨2, 48000, 16, 52 + junk.length⟩
    rw [hfind]
    rw [if_neg (by omega)]
    rw [f22, f24, f34]

/-- Witness for C6 (amended): a too-short input, a junk-tagged extra chunk
that is skipped, and the resulting parse with the data region at offset
53. -/
theorem c6_parser_error_cases_witness :
    parse_wav_header [0, 1, 2] = .error .wavTooShort ∧
    parse_wav_header (wavWithExtraChunk 74 85 78 75 [7] [9]) =
      .ok ⟨2, 48000, 16, 53⟩ :=
  ⟨c6_parser_error_cases.1 [0, 1, 2] (by decide),
   c6_parser_error_cases.2.2.2 74 85 78 75 [7] [9] (by decide) (by decide)
     (by decide)⟩

end Midirenderer



